import Mathlib

/-!
Verification of the wire-format encoding core of the `prost` repository:
the LEB128 varint codec (`src/prost/src/encoding/varint.rs`), field
numbers, tags, length delimiters, and the `Any` container.

Machine integers are embedded as `Nat` with explicit bounds where the
width matters.  A byte buffer is a `List Nat` whose elements are < 256.
Fallible operations return `Except String`, the `String` being the
message passed to `DecodeError::new` in the source.
-/

namespace Prost

/-- A list of `Nat` models a `&[u8]` when every element is below 256. -/
def ByteList (bytes : List Nat) : Prop := ∀ b ∈ bytes, b < 256

instance (bytes : List Nat) : Decidable (ByteList bytes) := by
  unfold ByteList
  infer_instance

/-- `bytes[i]`: the byte at index `i`, defaulting to 0 out of range (the
source never reads out of range on the paths we verify; keeping the access
total lets every definition stay executable). -/
def byteAt (bytes : List Nat) (i : Nat) : Nat := bytes.getD i 0

/-! ### Bridging lemmas for the bit operations used by the source -/

/-- `b &&& 0x7F` is `b % 128` (AND with an all-ones low mask is a remainder). -/
theorem and_0x7F (b : Nat) : b &&& 0x7F = b % 128 := by
  have h := Nat.and_pow_two_sub_one_eq_mod b 7
  norm_num at h
  exact h

/-- `b &&& 0x07` is `b % 8`. -/
theorem and_0x07 (b : Nat) : b &&& 0x07 = b % 8 := by
  have h := Nat.and_pow_two_sub_one_eq_mod b 3
  norm_num at h
  exact h

/-- OR with a value shifted wholly above the operand's bits is addition. -/
theorem lor_mul_two_pow_eq_add {a : Nat} (k b : Nat) (h : a < 2 ^ k) :
    a ||| b * 2 ^ k = a + b * 2 ^ k := by
  have hadd : a + b * 2 ^ k = 2 ^ k * b + a := by ring
  rw [hadd]
  apply Nat.eq_of_testBit_eq
  intro j
  rw [Nat.testBit_lor, Nat.testBit_mul_pow_two_add _ h, Nat.mul_comm,
    Nat.testBit_mul_pow_two]
  by_cases hj : j < k
  · simp [hj, Nat.not_le_of_lt hj]
  · have hle : k ≤ j := Nat.le_of_not_lt hj
    have ha : a.testBit j = false :=
      Nat.testBit_lt_two_pow (lt_of_lt_of_le h (Nat.pow_le_pow_right (by norm_num) hle))
    simp [hj, hle, ha]

/-- `v ||| 1` sets the low bit: it equals `2 * (v / 2) + 1`. -/
theorem lor_one_eq (v : Nat) : v ||| 1 = 2 * (v / 2) + 1 := by
  apply Nat.eq_of_testBit_eq
  intro j
  rw [Nat.testBit_lor]
  cases j with
  | zero =>
    have h2 : (2 * (v / 2) + 1) % 2 = 1 := by omega
    simp [Nat.testBit_zero, h2]
  | succ i =>
    have h2 : (2 * (v / 2) + 1) / 2 = v / 2 := by omega
    rw [Nat.testBit_add_one, Nat.testBit_add_one, Nat.testBit_add_one, h2]
    simp

/-- XOR with 63 complements the low six bits. -/
theorem xor_63 (m : Nat) (h : m < 64) : m ^^^ 63 = 63 - m := by
  interval_cases m <;> rfl

/-! ### Varint (`src/prost/src/encoding/varint.rs`)

`Varint` holds one `u64`; we represent it by the raw value `v < 2^64`. -/

/-- The encode loop body of `<Varint as ProtobufEncode>::encode`: `fuel` is the
number of loop iterations still allowed (the source iterates `for _ in 0..10`).
`value < 0x80` writes the final byte and breaks; otherwise the low seven bits
are written with the continuation bit and the value is shifted right by 7. -/
def Varint.encodeAux : Nat → Nat → List Nat
  | 0, _ => []
  | fuel + 1, value =>
    if value < 0x80 then [value]
    else ((value &&& 0x7F) ||| 0x80) :: Varint.encodeAux fuel (value >>> 7)

/-- `<Varint as ProtobufEncode>::encode`, as the list of bytes written. -/
def Varint.encode (value : Nat) : List Nat := Varint.encodeAux 10 value

/-- Binary bit length (`Nat.size`), computed structurally on a fuel bound so
that it evaluates by kernel reduction; `bitLenAux fuel n = Nat.size n`
whenever `n < 2 ^ fuel`. -/
def bitLenAux : Nat → Nat → Nat
  | 0, _ => 0
  | fuel + 1, n => if n = 0 then 0 else bitLenAux fuel (n / 2) + 1

/-- `u64::leading_zeros` of a value `v < 2^64`. -/
def leadingZeros64 (v : Nat) : Nat := 64 - bitLenAux 64 v

/-- `<Varint as ProtobufEncode>::encoded_len`:
`((((value | 1).leading_zeros() ^ 63) * 9 + 73) / 64)`. -/
def Varint.encoded_len (value : Nat) : Nat :=
  ((leadingZeros64 (value ||| 1) ^^^ 63) * 9 + 73) / 64

/-- `decode_varint_slice` from the source, fully unrolled.  The source reads
through `bytes.get_unchecked(i)`, justified by the asserted precondition that
`bytes` is non-empty and either has more than 10 elements or ends in a byte
below `0x80`; the embedding reads `byteAt bytes i`, which agrees with the
source on every index the source actually dereferences under that
precondition.  The `part0`/`part1`/`part2` accumulators are `u32` in the
source; for byte-valued input they never exceed `2^32` nor underflow, so plain
`Nat` arithmetic coincides.  Returns the value and the number of bytes read. -/
def decode_varint_slice (bytes : List Nat) : Except String (Nat × Nat) :=
  let b := byteAt bytes 0
  let part0 := b
  if b < 0x80 then .ok (part0, 1) else
  let part0 := part0 - 0x80
  let b := byteAt bytes 1
  let part0 := part0 + b * 2 ^ 7
  if b < 0x80 then .ok (part0, 2) else
  let part0 := part0 - 0x80 * 2 ^ 7
  let b := byteAt bytes 2
  let part0 := part0 + b * 2 ^ 14
  if b < 0x80 then .ok (part0, 3) else
  let part0 := part0 - 0x80 * 2 ^ 14
  let b := byteAt bytes 3
  let part0 := part0 + b * 2 ^ 21
  if b < 0x80 then .ok (part0, 4) else
  let part0 := part0 - 0x80 * 2 ^ 21
  let value := part0
  let b := byteAt bytes 4
  let part1 := b
  if b < 0x80 then .ok (value + part1 * 2 ^ 28, 5) else
  let part1 := part1 - 0x80
  let b := byteAt bytes 5
  let part1 := part1 + b * 2 ^ 7
  if b < 0x80 then .ok (value + part1 * 2 ^ 28, 6) else
  let part1 := part1 - 0x80 * 2 ^ 7
  let b := byteAt bytes 6
  let part1 := part1 + b * 2 ^ 14
  if b < 0x80 then .ok (value + part1 * 2 ^ 28, 7) else
  let part1 := part1 - 0x80 * 2 ^ 14
  let b := byteAt bytes 7
  let part1 := part1 + b * 2 ^ 21
  if b < 0x80 then .ok (value + part1 * 2 ^ 28, 8) else
  let part1 := part1 - 0x80 * 2 ^ 21
  let value := value + part1 * 2 ^ 28
  let b := byteAt bytes 8
  let part2 := b
  if b < 0x80 then .ok (value + part2 * 2 ^ 56, 9) else
  let part2 := part2 - 0x80
  let b := byteAt bytes 9
  let part2 := part2 + b * 2 ^ 7
  if b < 0x02 then .ok (value + part2 * 2 ^ 56, 10)
  else .error "invalid varint"

/-- The loop of `decode_varint_slow`: `for count in 0..n` with
`n = min(10, buf.remaining())`.  Each iteration reads one byte (the buffer
cursor having already advanced `count` times, so the byte is `bytes[count]`),
ORs its low seven bits into place, and returns on a byte without the
continuation bit — rejecting a tenth byte of `0x02` or more.  The loop
counter is represented by `count` plus the structurally decreasing `fuel`
(the number of iterations left, initially `n`); falling out of the loop is
the `fuel = 0` case. -/
def decodeVarintSlowGo (bytes : List Nat) : Nat → Nat → Nat →
    Except String (Nat × Nat)
  | 0, _, _ => .error "invalid varint"
  | fuel + 1, count, value =>
    let byte := byteAt bytes count
    let value := value ||| (byte &&& 0x7F) * 2 ^ (count * 7)
    if byte ≤ 0x7F then
      if count = 9 ∧ 0x02 ≤ byte then .error "invalid varint"
      else .ok (value, count + 1)
    else decodeVarintSlowGo bytes fuel (count + 1) value

/-- `decode_varint_slow` from the source.  The source returns only the value
and advances the buffer in place; the second component of the result records
that advance (the number of `get_u8` calls before the successful return). -/
def decode_varint_slow (bytes : List Nat) : Except String (Nat × Nat) :=
  decodeVarintSlowGo bytes (min 10 bytes.length) 0 0

/-- `<Varint as ProtobufDecode>::decode` over a slice-backed buffer, where
`buf.chunk()` is the whole remaining slice.  Returns the decoded value and the
number of bytes the buffer is advanced by. -/
def Varint.decode (bytes : List Nat) : Except String (Nat × Nat) :=
  let len := bytes.length
  if len = 0 then .error "invalid varint"
  else
    let byte := byteAt bytes 0
    if byte < 0x80 then .ok (byte, 1)
    else if len > 10 ∨ byteAt bytes (len - 1) < 0x80 then decode_varint_slice bytes
    else decode_varint_slow bytes

/-! ### Reference description of LEB128 decoding

`varintRef` is a transparent restatement of what both decode paths compute:
find the first byte without the continuation bit among the first
`min 10 len` bytes, fail if there is none or if it is a tenth byte with
value `0x02` or more, and otherwise sum the 7-bit groups.  Both source
decoders are proved equal to it. -/

/-- Index of the first byte below `0x80`, starting at `count`, looking at the
next `fuel` indices. -/
def firstTermFrom (bytes : List Nat) : Nat → Nat → Option Nat
  | _, 0 => none
  | count, fuel + 1 =>
    if byteAt bytes count < 0x80 then some count
    else firstTermFrom bytes (count + 1) fuel

/-- `segValue bytes count m` sums the low seven bits of the `m` bytes
starting at index `count`, each shifted into its LEB128 position. -/
def segValue (bytes : List Nat) : Nat → Nat → Nat
  | _, 0 => 0
  | count, m + 1 =>
    (byteAt bytes count % 128) * 2 ^ (count * 7) + segValue bytes (count + 1) m

/-- Reference LEB128 decoder (value and bytes consumed). -/
def varintRef (bytes : List Nat) : Except String (Nat × Nat) :=
  match firstTermFrom bytes 0 (min 10 bytes.length) with
  | none => .error "invalid varint"
  | some i =>
    if i = 9 ∧ 0x02 ≤ byteAt bytes 9 then .error "invalid varint"
    else .ok (segValue bytes 0 (i + 1), i + 1)

/-- The byte runs on which varint decoding fails: no terminating byte among
the first `min 10 len` bytes, or a run terminating on a tenth byte of value
`0x02` or more. -/
def varintBad (bytes : List Nat) : Prop :=
  (∀ i < min 10 bytes.length, 0x80 ≤ byteAt bytes i) ∨
    (10 ≤ bytes.length ∧ (∀ i < 9, 0x80 ≤ byteAt bytes i) ∧
      0x02 ≤ byteAt bytes 9 ∧ byteAt bytes 9 < 0x80)

instance (bytes : List Nat) : Decidable (varintBad bytes) := by
  unfold varintBad
  infer_instance

/-! ### Characterization of the helpers -/

theorem firstTermFrom_eq_some_iff {bytes : List Nat} {c f i : Nat} :
    firstTermFrom bytes c f = some i ↔
      c ≤ i ∧ i < c + f ∧ byteAt bytes i < 0x80 ∧
        ∀ j, c ≤ j → j < i → 0x80 ≤ byteAt bytes j := by
  induction f generalizing c with
  | zero => simp [firstTermFrom]; omega
  | succ m ih =>
    rw [firstTermFrom]
    by_cases h : byteAt bytes c < 0x80
    · rw [if_pos h]
      constructor
      · rintro h'
        obtain rfl : c = i := by simpa using h'
        exact ⟨le_refl _, by omega, h, fun j hj hj' => by omega⟩
      · rintro ⟨h1, _, _, h4⟩
        have : c = i := by
          by_contra hne
          exact absurd h (not_lt.mpr (h4 c (le_refl _) (by omega)))
        simp [this]
    · rw [if_neg h, ih]
      constructor
      · rintro ⟨h1, h2, h3, h4⟩
        refine ⟨by omega, by omega, h3, fun j hj hj' => ?_⟩
        rcases Nat.eq_or_lt_of_le hj with rfl | hlt
        · exact le_of_not_lt h
        · exact h4 j hlt hj'
      · rintro ⟨h1, h2, h3, h4⟩
        have hci : c ≠ i := by
          rintro rfl
          exact h h3
        exact ⟨by omega, by omega, h3, fun j hj hj' => h4 j (by omega) hj'⟩

theorem firstTermFrom_eq_none_iff {bytes : List Nat} {c f : Nat} :
    firstTermFrom bytes c f = none ↔
      ∀ j, c ≤ j → j < c + f → 0x80 ≤ byteAt bytes j := by
  induction f generalizing c with
  | zero => simp [firstTermFrom]; omega
  | succ m ih =>
    rw [firstTermFrom]
    by_cases h : byteAt bytes c < 0x80
    · simp only [if_pos h]
      constructor
      · intro h'; cases h'
      · intro h'
        exact absurd (h' c (le_refl _) (by omega)) (not_le.mpr h)
    · rw [if_neg h, ih]
      constructor
      · intro h' j hj hj'
        rcases Nat.eq_or_lt_of_le hj with rfl | hlt
        · exact le_of_not_lt h
        · exact h' j hlt (by omega)
      · intro h' j hj hj'
        exact h' j (by omega) (by omega)

theorem decodeVarintSlowGo_eq (bytes : List Nat) (fuel : Nat) :
    ∀ count value, value < 2 ^ (count * 7) →
    decodeVarintSlowGo bytes fuel count value =
      match firstTermFrom bytes count fuel with
      | none => .error "invalid varint"
      | some i =>
        if i = 9 ∧ 0x02 ≤ byteAt bytes 9 then .error "invalid varint"
        else .ok (value + segValue bytes count (i + 1 - count), i + 1) := by
  induction fuel with
  | zero => intro count value _; simp [decodeVarintSlowGo, firstTermFrom]
  | succ m ih =>
    intro count value hv
    rw [decodeVarintSlowGo, firstTermFrom]
    by_cases hb : byteAt bytes count ≤ 0x7F
    · rw [if_pos hb, if_pos (show byteAt bytes count < 0x80 by omega)]
      by_cases h9 : count = 9 ∧ 0x02 ≤ byteAt bytes count
      · obtain ⟨rfl, h2⟩ := h9
        rw [if_pos ⟨rfl, h2⟩]
        have h9t : 9 = 9 ∧ 0x02 ≤ byteAt bytes 9 := ⟨rfl, h2⟩
        simp only [if_pos h9t]
        rw [if_pos ⟨trivial, h2⟩]
      · rw [if_neg h9]
        have h9' : ¬(count = 9 ∧ 0x02 ≤ byteAt bytes 9) := by
          rintro ⟨rfl, h2⟩; exact h9 ⟨rfl, h2⟩
        simp only [h9', if_false]
        have hseg : segValue bytes count (count + 1 - count) =
            (byteAt bytes count % 128) * 2 ^ (count * 7) := by
          have h1 : count + 1 - count = 1 := by omega
          rw [h1, segValue, segValue, Nat.add_zero]
        rw [hseg, and_0x7F,
          lor_mul_two_pow_eq_add (count * 7) (byteAt bytes count % 128) hv]
    · rw [if_neg hb, if_neg (show ¬ byteAt bytes count < 0x80 by omega)]
      have hv' : value ||| (byteAt bytes count &&& 0x7F) * 2 ^ (count * 7) =
          value + (byteAt bytes count % 128) * 2 ^ (count * 7) := by
        rw [and_0x7F, lor_mul_two_pow_eq_add (count * 7) _ hv]
      have hlt' : value + (byteAt bytes count % 128) * 2 ^ (count * 7) <
          2 ^ ((count + 1) * 7) := by
        have he : 2 ^ ((count + 1) * 7) = 2 ^ (count * 7) * 128 := by
          have h7 : (count + 1) * 7 = count * 7 + 7 := by ring
          rw [h7, pow_add]; norm_num
        have hm : byteAt bytes count % 128 < 128 := Nat.mod_lt _ (by norm_num)
        have h2 : (byteAt bytes count % 128) * 2 ^ (count * 7) ≤
            127 * 2 ^ (count * 7) := Nat.mul_le_mul_right _ (by omega)
        omega
      rw [hv', ih (count + 1) _ hlt']
      cases hft : firstTermFrom bytes (count + 1) m with
      | none => rfl
      | some i =>
        have hi : count + 1 ≤ i := (firstTermFrom_eq_some_iff.mp hft).1
        simp only []
        by_cases h9 : i = 9 ∧ 0x02 ≤ byteAt bytes 9
        · rw [if_pos h9, if_pos h9]
        · rw [if_neg h9, if_neg h9]
          have h1 : i + 1 - count = (i - count) + 1 := by omega
          have h2 : i + 1 - (count + 1) = i - count := by omega
          rw [h1, h2, segValue, Nat.add_assoc]

/-- The slow path computes exactly the reference decoder. -/
theorem decode_varint_slow_eq_ref (bytes : List Nat) :
    decode_varint_slow bytes = varintRef bytes := by
  rw [decode_varint_slow, decodeVarintSlowGo_eq bytes _ 0 0 (by norm_num), varintRef]
  cases firstTermFrom bytes 0 (min 10 bytes.length) with
  | none => rfl
  | some i => simp

/-- Reading any index of a byte list stays below 256. -/
theorem getD_lt_256 {bytes : List Nat} (hb : ByteList bytes) (i : Nat) :
    byteAt bytes i < 256 := by
  unfold byteAt
  by_cases h : i < bytes.length
  · rw [List.getD_eq_getElem bytes 0 h]
    exact hb _ (List.getElem_mem h)
  · rw [List.getD_eq_default bytes 0 (by omega)]
    norm_num

/-- An index whose read carries a continuation bit is in bounds. -/
theorem lt_length_of_getD_ge {bytes : List Nat} {i : Nat}
    (h : 0x80 ≤ byteAt bytes i) : i < bytes.length := by
  by_contra h'
  unfold byteAt at h
  rw [List.getD_eq_default bytes 0 (by omega)] at h
  omega

/-- The bulk (slice) path computes exactly the reference decoder, under its
asserted precondition. -/
theorem decode_varint_slice_eq_ref (bytes : List Nat) (hb : ByteList bytes)
    (hne : bytes ≠ [])
    (hpre : 10 < bytes.length ∨ byteAt bytes (bytes.length - 1) < 0x80) :
    decode_varint_slice bytes = varintRef bytes := by
  have hB : ∀ i, byteAt bytes i < 256 := getD_lt_256 hb
  have hlen0 : 0 < bytes.length := List.length_pos.mpr hne
  by_cases h0 : byteAt bytes 0 < 0x80
  · -- the varint terminates at index 0
    have hft : firstTermFrom bytes 0 (min 10 bytes.length) = some 0 :=
      firstTermFrom_eq_some_iff.mpr ⟨by omega, by omega, h0, by intro j hj hj2; omega⟩
    rw [varintRef, hft]
    simp only [decode_varint_slice]
    rw [if_pos h0, if_neg (by rintro ⟨hq, hh⟩; omega)]
    simp only [segValue, Except.ok.injEq, Prod.mk.injEq]
    refine ⟨by have hc0 := hB 0; norm_num; omega, by trivial⟩
  · -- index 0 carries the continuation bit
    by_cases h1 : byteAt bytes 1 < 0x80
    · -- the varint terminates at index 1
      have hilen : 1 < bytes.length := by
        rcases hpre with h | h
        · omega
        · by_contra hc
          have lp : 0 < bytes.length := lt_length_of_getD_ge (by omega)
          have hl : bytes.length = 1 := by omega
          rw [hl] at h
          norm_num at h
          omega
      have hft : firstTermFrom bytes 0 (min 10 bytes.length) = some 1 :=
        firstTermFrom_eq_some_iff.mpr ⟨by omega, by omega, h1, by
          intro j hj hj2
          have hjc : j = 0 := by omega
          rcases hjc with rfl <;> omega⟩
      rw [varintRef, hft]
      simp only [decode_varint_slice]
      rw [if_neg h0, if_pos h1, if_neg (by rintro ⟨hq, hh⟩; omega)]
      simp only [segValue, Except.ok.injEq, Prod.mk.injEq]
      refine ⟨by have hc0 := hB 0; have hc1 := hB 1; norm_num; omega, by trivial⟩
    · -- index 1 carries the continuation bit
      by_cases h2 : byteAt bytes 2 < 0x80
      · -- the varint terminates at index 2
        have hilen : 2 < bytes.length := by
          rcases hpre with h | h
          · omega
          · by_contra hc
            have lp : 1 < bytes.length := lt_length_of_getD_ge (by omega)
            have hl : bytes.length = 2 := by omega
            rw [hl] at h
            norm_num at h
            omega
        have hft : firstTermFrom bytes 0 (min 10 bytes.length) = some 2 :=
          firstTermFrom_eq_some_iff.mpr ⟨by omega, by omega, h2, by
            intro j hj hj2
            have hjc : j = 0 ∨ j = 1 := by omega
            rcases hjc with rfl|rfl <;> omega⟩
        rw [varintRef, hft]
        simp only [decode_varint_slice]
        rw [if_neg h0, if_neg h1, if_pos h2, if_neg (by rintro ⟨hq, hh⟩; omega)]
        simp only [segValue, Except.ok.injEq, Prod.mk.injEq]
        refine ⟨by have hc0 := hB 0; have hc1 := hB 1; have hc2 := hB 2; norm_num; omega, by trivial⟩
      · -- index 2 carries the continuation bit
        by_cases h3 : byteAt bytes 3 < 0x80
        · -- the varint terminates at index 3
          have hilen : 3 < bytes.length := by
            rcases hpre with h | h
            · omega
            · by_contra hc
              have lp : 2 < bytes.length := lt_length_of_getD_ge (by omega)
              have hl : bytes.length = 3 := by omega
              rw [hl] at h
              norm_num at h
              omega
          have hft : firstTermFrom bytes 0 (min 10 bytes.length) = some 3 :=
            firstTermFrom_eq_some_iff.mpr ⟨by omega, by omega, h3, by
              intro j hj hj2
              have hjc : j = 0 ∨ j = 1 ∨ j = 2 := by omega
              rcases hjc with rfl|rfl|rfl <;> omega⟩
          rw [varintRef, hft]
          simp only [decode_varint_slice]
          rw [if_neg h0, if_neg h1, if_neg h2, if_pos h3, if_neg (by rintro ⟨hq, hh⟩; omega)]
          simp only [segValue, Except.ok.injEq, Prod.mk.injEq]
          refine ⟨by have hc0 := hB 0; have hc1 := hB 1; have hc2 := hB 2; have hc3 := hB 3; norm_num; omega, by trivial⟩
        · -- index 3 carries the continuation bit
          by_cases h4 : byteAt bytes 4 < 0x80
          · -- the varint terminates at index 4
            have hilen : 4 < bytes.length := by
              rcases hpre with h | h
              · omega
              · by_contra hc
                have lp : 3 < bytes.length := lt_length_of_getD_ge (by omega)
                have hl : bytes.length = 4 := by omega
                rw [hl] at h
                norm_num at h
                omega
            have hft : firstTermFrom bytes 0 (min 10 bytes.length) = some 4 :=
              firstTermFrom_eq_some_iff.mpr ⟨by omega, by omega, h4, by
                intro j hj hj2
                have hjc : j = 0 ∨ j = 1 ∨ j = 2 ∨ j = 3 := by omega
                rcases hjc with rfl|rfl|rfl|rfl <;> omega⟩
            rw [varintRef, hft]
            simp only [decode_varint_slice]
            rw [if_neg h0, if_neg h1, if_neg h2, if_neg h3, if_pos h4, if_neg (by rintro ⟨hq, hh⟩; omega)]
            simp only [segValue, Except.ok.injEq, Prod.mk.injEq]
            refine ⟨by have hc0 := hB 0; have hc1 := hB 1; have hc2 := hB 2; have hc3 := hB 3; have hc4 := hB 4; norm_num; omega, by trivial⟩
          · -- index 4 carries the continuation bit
            by_cases h5 : byteAt bytes 5 < 0x80
            · -- the varint terminates at index 5
              have hilen : 5 < bytes.length := by
                rcases hpre with h | h
                · omega
                · by_contra hc
                  have lp : 4 < bytes.length := lt_length_of_getD_ge (by omega)
                  have hl : bytes.length = 5 := by omega
                  rw [hl] at h
                  norm_num at h
                  omega
              have hft : firstTermFrom bytes 0 (min 10 bytes.length) = some 5 :=
                firstTermFrom_eq_some_iff.mpr ⟨by omega, by omega, h5, by
                  intro j hj hj2
                  have hjc : j = 0 ∨ j = 1 ∨ j = 2 ∨ j = 3 ∨ j = 4 := by omega
                  rcases hjc with rfl|rfl|rfl|rfl|rfl <;> omega⟩
              rw [varintRef, hft]
              simp only [decode_varint_slice]
              rw [if_neg h0, if_neg h1, if_neg h2, if_neg h3, if_neg h4, if_pos h5, if_neg (by rintro ⟨hq, hh⟩; omega)]
              simp only [segValue, Except.ok.injEq, Prod.mk.injEq]
              refine ⟨by have hc0 := hB 0; have hc1 := hB 1; have hc2 := hB 2; have hc3 := hB 3; have hc4 := hB 4; have hc5 := hB 5; norm_num; omega, by trivial⟩
            · -- index 5 carries the continuation bit
              by_cases h6 : byteAt bytes 6 < 0x80
              · -- the varint terminates at index 6
                have hilen : 6 < bytes.length := by
                  rcases hpre with h | h
                  · omega
                  · by_contra hc
                    have lp : 5 < bytes.length := lt_length_of_getD_ge (by omega)
                    have hl : bytes.length = 6 := by omega
                    rw [hl] at h
                    norm_num at h
                    omega
                have hft : firstTermFrom bytes 0 (min 10 bytes.length) = some 6 :=
                  firstTermFrom_eq_some_iff.mpr ⟨by omega, by omega, h6, by
                    intro j hj hj2
                    have hjc : j = 0 ∨ j = 1 ∨ j = 2 ∨ j = 3 ∨ j = 4 ∨ j = 5 := by omega
                    rcases hjc with rfl|rfl|rfl|rfl|rfl|rfl <;> omega⟩
                rw [varintRef, hft]
                simp only [decode_varint_slice]
                rw [if_neg h0, if_neg h1, if_neg h2, if_neg h3, if_neg h4, if_neg h5, if_pos h6, if_neg (by rintro ⟨hq, hh⟩; omega)]
                simp only [segValue, Except.ok.injEq, Prod.mk.injEq]
                refine ⟨by have hc0 := hB 0; have hc1 := hB 1; have hc2 := hB 2; have hc3 := hB 3; have hc4 := hB 4; have hc5 := hB 5; have hc6 := hB 6; norm_num; omega, by trivial⟩
              · -- index 6 carries the continuation bit
                by_cases h7 : byteAt bytes 7 < 0x80
                · -- the varint terminates at index 7
                  have hilen : 7 < bytes.length := by
                    rcases hpre with h | h
                    · omega
                    · by_contra hc
                      have lp : 6 < bytes.length := lt_length_of_getD_ge (by omega)
                      have hl : bytes.length = 7 := by omega
                      rw [hl] at h
                      norm_num at h
                      omega
                  have hft : firstTermFrom bytes 0 (min 10 bytes.length) = some 7 :=
                    firstTermFrom_eq_some_iff.mpr ⟨by omega, by omega, h7, by
                      intro j hj hj2
                      have hjc : j = 0 ∨ j = 1 ∨ j = 2 ∨ j = 3 ∨ j = 4 ∨ j = 5 ∨ j = 6 := by omega
                      rcases hjc with rfl|rfl|rfl|rfl|rfl|rfl|rfl <;> omega⟩
                  rw [varintRef, hft]
                  simp only [decode_varint_slice]
                  rw [if_neg h0, if_neg h1, if_neg h2, if_neg h3, if_neg h4, if_neg h5, if_neg h6, if_pos h7, if_neg (by rintro ⟨hq, hh⟩; omega)]
                  simp only [segValue, Except.ok.injEq, Prod.mk.injEq]
                  refine ⟨by have hc0 := hB 0; have hc1 := hB 1; have hc2 := hB 2; have hc3 := hB 3; have hc4 := hB 4; have hc5 := hB 5; have hc6 := hB 6; have hc7 := hB 7; norm_num; omega, by trivial⟩
                · -- index 7 carries the continuation bit
                  by_cases h8 : byteAt bytes 8 < 0x80
                  · -- the varint terminates at index 8
                    have hilen : 8 < bytes.length := by
                      rcases hpre with h | h
                      · omega
                      · by_contra hc
                        have lp : 7 < bytes.length := lt_length_of_getD_ge (by omega)
                        have hl : bytes.length = 8 := by omega
                        rw [hl] at h
                        norm_num at h
                        omega
                    have hft : firstTermFrom bytes 0 (min 10 bytes.length) = some 8 :=
                      firstTermFrom_eq_some_iff.mpr ⟨by omega, by omega, h8, by
                        intro j hj hj2
                        have hjc : j = 0 ∨ j = 1 ∨ j = 2 ∨ j = 3 ∨ j = 4 ∨ j = 5 ∨ j = 6 ∨ j = 7 := by omega
                        rcases hjc with rfl|rfl|rfl|rfl|rfl|rfl|rfl|rfl <;> omega⟩
                    rw [varintRef, hft]
                    simp only [decode_varint_slice]
                    rw [if_neg h0, if_neg h1, if_neg h2, if_neg h3, if_neg h4, if_neg h5, if_neg h6, if_neg h7, if_pos h8, if_neg (by rintro ⟨hq, hh⟩; omega)]
                    simp only [segValue, Except.ok.injEq, Prod.mk.injEq]
                    refine ⟨by have hc0 := hB 0; have hc1 := hB 1; have hc2 := hB 2; have hc3 := hB 3; have hc4 := hB 4; have hc5 := hB 5; have hc6 := hB 6; have hc7 := hB 7; have hc8 := hB 8; norm_num; omega, by trivial⟩
                  · -- index 8 carries the continuation bit
                    by_cases h9 : byteAt bytes 9 < 0x80
                    · -- the run reaches a terminating tenth byte
                      have hilen : 9 < bytes.length := by
                        rcases hpre with h | h
                        · omega
                        · by_contra hc
                          have lp : 8 < bytes.length := lt_length_of_getD_ge (by omega)
                          have hl : bytes.length = 9 := by omega
                          rw [hl] at h
                          norm_num at h
                          omega
                      have hft : firstTermFrom bytes 0 (min 10 bytes.length) = some 9 :=
                        firstTermFrom_eq_some_iff.mpr ⟨by omega, by omega, h9, by
                          intro j hj hj2
                          have hjc : j = 0 ∨ j = 1 ∨ j = 2 ∨ j = 3 ∨ j = 4 ∨ j = 5 ∨ j = 6 ∨ j = 7 ∨ j = 8 := by omega
                          rcases hjc with rfl|rfl|rfl|rfl|rfl|rfl|rfl|rfl|rfl <;> omega⟩
                      rw [varintRef, hft]
                      simp only [decode_varint_slice]
                      rw [if_neg h0, if_neg h1, if_neg h2, if_neg h3, if_neg h4, if_neg h5, if_neg h6, if_neg h7, if_neg h8]
                      by_cases hv9 : 0x02 ≤ byteAt bytes 9
                      · -- tenth byte at least 0x02: overflow, both sides fail
                        rw [if_neg (show ¬ byteAt bytes 9 < 0x02 by omega), if_pos ⟨trivial, hv9⟩]
                      · rw [if_pos (show byteAt bytes 9 < 0x02 by omega), if_neg (by rintro ⟨hq, hh⟩; omega)]
                        simp only [segValue, Except.ok.injEq, Prod.mk.injEq]
                        refine ⟨by have hc0 := hB 0; have hc1 := hB 1; have hc2 := hB 2; have hc3 := hB 3; have hc4 := hB 4; have hc5 := hB 5; have hc6 := hB 6; have hc7 := hB 7; have hc8 := hB 8; have hc9 := hB 9; norm_num; omega, by trivial⟩
                    · -- no terminating byte within ten: both sides fail
                      have hft : firstTermFrom bytes 0 (min 10 bytes.length) = none := by
                        rw [firstTermFrom_eq_none_iff]
                        intro j hj hj2
                        have l9 : 9 < bytes.length := lt_length_of_getD_ge (by omega)
                        have hjc : j = 0 ∨ j = 1 ∨ j = 2 ∨ j = 3 ∨ j = 4 ∨ j = 5 ∨ j = 6 ∨ j = 7 ∨ j = 8 ∨ j = 9 := by omega
                        rcases hjc with rfl|rfl|rfl|rfl|rfl|rfl|rfl|rfl|rfl|rfl <;> omega
                      rw [varintRef, hft]
                      simp only [decode_varint_slice]
                      rw [if_neg h0, if_neg h1, if_neg h2, if_neg h3, if_neg h4, if_neg h5, if_neg h6, if_neg h7, if_neg h8, if_neg (show ¬ byteAt bytes 9 < 0x02 by omega)]

/-- The reference decoder fails exactly on the bad byte runs. -/
theorem varintRef_error_iff (bytes : List Nat) :
    varintRef bytes = .error "invalid varint" ↔ varintBad bytes := by
  rcases hop : firstTermFrom bytes 0 (min 10 bytes.length) with _ | i
  · rw [firstTermFrom_eq_none_iff] at hop
    simp only [varintRef]
    rw [firstTermFrom_eq_none_iff.mpr (fun j hj hj2 => hop j hj hj2)]
    constructor
    · intro _
      exact Or.inl fun i hi => hop i (by omega) (by omega)
    · intro _
      rfl
  · have hft := hop
    rw [firstTermFrom_eq_some_iff] at hft
    obtain ⟨hi0, hin, hterm, hprev⟩ := hft
    simp only [varintRef, hop]
    by_cases h9 : i = 9 ∧ 0x02 ≤ byteAt bytes 9
    · rw [if_pos h9]
      obtain ⟨rfl, h92⟩ := h9
      constructor
      · intro _
        refine Or.inr ⟨by omega, fun j hj => hprev j (by omega) hj, h92, hterm⟩
      · intro _
        rfl
    · rw [if_neg h9]
      constructor
      · intro h
        exact Except.noConfusion h
      · intro hbad
        exfalso
        rcases hbad with hall | ⟨hlen, hall, h2, hlt⟩
        · exact absurd hterm (not_lt.mpr (hall i (by omega)))
        · rcases Nat.lt_or_ge i 9 with hi9 | hi9
          · exact absurd hterm (not_lt.mpr (hall i hi9))
          · have hieq : i = 9 := by omega
            subst hieq
            exact h9 ⟨rfl, h2⟩

/-- `Varint::decode` computes exactly the reference decoder on byte input:
the fast single-byte path, the bulk path and the slow path all agree with
it. -/
theorem Varint.decode_eq_ref (bytes : List Nat) (hb : ByteList bytes) :
    Varint.decode bytes = varintRef bytes := by
  rw [Varint.decode]
  by_cases h0 : bytes.length = 0
  · rw [if_pos h0]
    have hemp : bytes = [] := List.length_eq_zero.mp h0
    subst hemp
    rfl
  · rw [if_neg h0]
    by_cases hfast : byteAt bytes 0 < 0x80
    · rw [if_pos hfast]
      have hft : firstTermFrom bytes 0 (min 10 bytes.length) = some 0 :=
        firstTermFrom_eq_some_iff.mpr ⟨by omega, by omega, hfast, by
          intro j hj hj2; omega⟩
      simp only [varintRef, hft]
      rw [if_neg (by rintro ⟨hq, hh⟩; omega)]
      simp only [segValue]
      norm_num
      omega
    · rw [if_neg hfast]
      by_cases hpre : bytes.length > 10 ∨ byteAt bytes (bytes.length - 1) < 0x80
      · rw [if_pos hpre]
        exact decode_varint_slice_eq_ref bytes hb
          (by intro hh; subst hh; simp at h0) hpre
      · rw [if_neg hpre]
        exact decode_varint_slow_eq_ref bytes

/-- The 7-bit groups summed by `segValue` stay below the matching power of
two. -/
theorem segValue_le (bytes : List Nat) (m : Nat) :
    ∀ c, segValue bytes c m + 2 ^ (c * 7) ≤ 2 ^ ((c + m) * 7) := by
  induction m with
  | zero =>
    intro c
    simp [segValue]
  | succ k ih =>
    intro c
    rw [segValue]
    have h1 := ih (c + 1)
    have he : 2 ^ ((c + 1) * 7) = 2 ^ (c * 7) * 128 := by
      have h7 : (c + 1) * 7 = c * 7 + 7 := by ring
      rw [h7, pow_add]
      norm_num
    have he2 : (c + 1 + k) * 7 = (c + (k + 1)) * 7 := by ring
    rw [he2] at h1
    have hm : byteAt bytes c % 128 < 128 := Nat.mod_lt _ (by norm_num)
    have h2 : (byteAt bytes c % 128) * 2 ^ (c * 7) ≤ 127 * 2 ^ (c * 7) :=
      Nat.mul_le_mul_right _ (by omega)
    omega

/-- Peeling the last 7-bit group off `segValue`. -/
theorem segValue_snoc (bytes : List Nat) (m : Nat) :
    ∀ c, segValue bytes c (m + 1) =
      segValue bytes c m + (byteAt bytes (c + m) % 128) * 2 ^ ((c + m) * 7) := by
  induction m with
  | zero =>
    intro c
    simp [segValue]
  | succ k ih =>
    intro c
    rw [segValue, ih (c + 1), segValue]
    have h1 : c + 1 + k = c + (k + 1) := by ring
    rw [h1, Nat.add_assoc]

/-- Every value the reference decoder produces fits in 64 bits. -/
theorem varintRef_ok_lt (bytes : List Nat) (v n : Nat)
    (h : varintRef bytes = .ok (v, n)) : v < 2 ^ 64 ∧ 1 ≤ n ∧ n ≤ 10 := by
  rcases hop : firstTermFrom bytes 0 (min 10 bytes.length) with _ | i
  · rw [varintRef, hop] at h
    exact Except.noConfusion h
  · have hft := hop
    rw [firstTermFrom_eq_some_iff] at hft
    obtain ⟨hi0, hin, hterm, hprev⟩ := hft
    simp only [varintRef, hop] at h
    by_cases h9 : i = 9 ∧ 0x02 ≤ byteAt bytes 9
    · rw [if_pos h9] at h
      exact Except.noConfusion h
    · rw [if_neg h9] at h
      have hv : v = segValue bytes 0 (i + 1) := by
        have := h
        simp only [Except.ok.injEq, Prod.mk.injEq] at this
        omega
      have hn : n = i + 1 := by
        simp only [Except.ok.injEq, Prod.mk.injEq] at h
        omega
      subst hv
      subst hn
      refine ⟨?_, by omega, by omega⟩
      rcases Nat.lt_or_ge i 9 with hi9 | hi9
      · have := segValue_le bytes (i + 1) 0
        have hle : (0 + (i + 1)) * 7 ≤ 63 := by omega
        have hpow : 2 ^ ((0 + (i + 1)) * 7) ≤ 2 ^ 63 :=
          Nat.pow_le_pow_right (by norm_num) hle
        have h64 : (2 : Nat) ^ 63 < 2 ^ 64 := by norm_num
        omega
      · have hieq : i = 9 := by omega
        subst hieq
        have h92 : byteAt bytes 9 < 0x02 := by
          by_contra hc
          exact h9 ⟨rfl, by omega⟩
        rw [segValue_snoc bytes 9 0] at *
        have h1 := segValue_le bytes 9 0
        have h2 : byteAt bytes 9 % 128 = byteAt bytes 9 := Nat.mod_eq_of_lt (by omega)
        rw [h2]
        have h3 : byteAt bytes 9 * 2 ^ ((0 + 9) * 7) ≤ 1 * 2 ^ ((0 + 9) * 7) :=
          Nat.mul_le_mul_right _ (by omega)
        norm_num at *
        omega

/-! ### The encode loop -/

/-- The encode loop writes `(x & 0x7F) | 0x80`, i.e. `x % 128` with the
continuation bit set. -/
theorem encodeByte_eq (x : Nat) : (x &&& 0x7F) ||| 0x80 = x % 128 + 128 := by
  rw [and_0x7F]
  have h := lor_mul_two_pow_eq_add (a := x % 128) 7 1 (by omega)
  norm_num at h
  exact h

/-- Little-endian base-128 digits with continuation bits: the arithmetic
normal form of `Varint.encodeAux`. -/
def leb128 : Nat → Nat → List Nat
  | 0, _ => []
  | fuel + 1, v => if v < 0x80 then [v] else (v % 128 + 128) :: leb128 fuel (v / 128)

theorem encodeAux_eq_leb128 : ∀ fuel v, Varint.encodeAux fuel v = leb128 fuel v := by
  intro fuel
  induction fuel with
  | zero => intro v; rfl
  | succ m ih =>
    intro v
    rw [Varint.encodeAux, leb128]
    by_cases h : v < 0x80
    · rw [if_pos h, if_pos h]
    · rw [if_neg h, if_neg h, encodeByte_eq, ih]
      congr 1
      rw [Nat.shiftRight_eq_div_pow]

/-- Reading the head and tail of a cons cell. -/
theorem byteAt_cons_zero (a : Nat) (l : List Nat) : byteAt (a :: l) 0 = a := rfl

theorem byteAt_cons_succ (a : Nat) (l : List Nat) (i : Nat) :
    byteAt (a :: l) (i + 1) = byteAt l i := rfl

/-- Shifting the start of a `segValue` window across a cons cell multiplies
by 128. -/
theorem segValue_cons (a : Nat) (l : List Nat) (m : Nat) :
    ∀ c, segValue (a :: l) (c + 1) m = 128 * segValue l c m := by
  induction m with
  | zero => intro c; rfl
  | succ k ih =>
    intro c
    rw [segValue, segValue, byteAt_cons_succ, ih (c + 1)]
    have he : 2 ^ ((c + 1) * 7) = 2 ^ (c * 7) * 128 := by
      have h7 : (c + 1) * 7 = c * 7 + 7 := by ring
      rw [h7, pow_add]
      norm_num
    rw [he]
    ring

/-- Everything `C1` needs about the byte list the encoder emits. -/
theorem leb128_spec : ∀ fuel v, v < 2 ^ (fuel * 7) → 1 ≤ fuel →
    ByteList (leb128 fuel v) ∧
    1 ≤ (leb128 fuel v).length ∧ (leb128 fuel v).length ≤ fuel ∧
    byteAt (leb128 fuel v) ((leb128 fuel v).length - 1) < 0x80 ∧
    (∀ j, j < (leb128 fuel v).length - 1 → 0x80 ≤ byteAt (leb128 fuel v) j) ∧
    segValue (leb128 fuel v) 0 (leb128 fuel v).length = v ∧
    v < 2 ^ ((leb128 fuel v).length * 7) ∧
    (1 < (leb128 fuel v).length → 2 ^ (((leb128 fuel v).length - 1) * 7) ≤ v) := by
  intro fuel
  induction fuel with
  | zero => intro v _ h1; omega
  | succ m ih =>
    intro v hv _
    rw [leb128]
    by_cases h : v < 0x80
    · rw [if_pos h]
      refine ⟨?_, by norm_num, by norm_num, by
        norm_num [byteAt, List.getD]; omega, by norm_num, ?_, by
        norm_num [byteAt, List.getD]; omega, by norm_num⟩
      · intro b hb
        simp only [List.mem_singleton] at hb
        omega
      · simp [segValue, byteAt, List.getD]
        omega
    · rw [if_neg h]
      have hm1 : 1 ≤ m := by
        by_contra hc
        have hm0 : m = 0 := by omega
        subst hm0
        norm_num at hv
        omega
      have hv' : v / 128 < 2 ^ (m * 7) := by
        have he : 2 ^ ((m + 1) * 7) = 2 ^ (m * 7) * 128 := by
          have h7 : (m + 1) * 7 = m * 7 + 7 := by ring
          rw [h7, pow_add]
          norm_num
        rw [he] at hv
        omega
      obtain ⟨ihB, ihlen1, ihlen2, ihlast, ihcont, ihval, ihub, ihlb⟩ :=
        ih (v / 128) hv' hm1
      set L := leb128 m (v / 128) with hL
      constructor
      · intro b hb
        rcases List.mem_cons.mp hb with rfl | hb
        · omega
        · exact ihB b hb
      refine ⟨by simp, by simp; omega, ?_, ?_, ?_, ?_, ?_⟩
      · have hlen : ((v % 128 + 128) :: L).length - 1 = (L.length - 1) + 1 := by
          simp
          omega
        rw [hlen, byteAt_cons_succ]
        exact ihlast
      · intro j hj
        cases j with
        | zero => rw [byteAt_cons_zero]; omega
        | succ j' =>
          rw [byteAt_cons_succ]
          apply ihcont
          simp at hj
          omega
      · have hlen : ((v % 128 + 128) :: L).length = L.length + 1 := by simp
        rw [hlen, segValue, byteAt_cons_zero, segValue_cons, ihval]
        have hmod : (v % 128 + 128) % 128 = v % 128 := by omega
        rw [hmod]
        norm_num
        omega
      · have hlen : ((v % 128 + 128) :: L).length = L.length + 1 := by simp
        rw [hlen]
        have he : 2 ^ ((L.length + 1) * 7) = 2 ^ (L.length * 7) * 128 := by
          have h7 : (L.length + 1) * 7 = L.length * 7 + 7 := by ring
          rw [h7, pow_add]
          norm_num
        rw [he]
        omega
      · intro _
        have hlen : ((v % 128 + 128) :: L).length - 1 = L.length := by simp
        rw [hlen]
        rcases Nat.lt_or_ge 1 L.length with h1 | h1
        · have hlow := ihlb h1
          have he : 2 ^ (L.length * 7) = 2 ^ ((L.length - 1) * 7) * 128 := by
            have h7 : L.length * 7 = (L.length - 1) * 7 + 7 := by omega
            rw [h7, pow_add]
            norm_num
          rw [he]
          have : 2 ^ ((L.length - 1) * 7) * 128 ≤ (v / 128) * 128 :=
            Nat.mul_le_mul_right _ hlow
          omega
        · have hL1 : L.length = 1 := by omega
          rw [hL1]
          norm_num
          omega

/-! ### `encoded_len` -/

theorem size_div2_succ {n : Nat} (h : n ≠ 0) : Nat.size n = Nat.size (n / 2) + 1 := by
  have hb : Nat.bit (decide (n % 2 = 1)) (n / 2) = n := by
    rcases Nat.mod_two_eq_zero_or_one n with h2 | h2 <;> simp [Nat.bit, h2] <;> omega
  conv_lhs => rw [← hb]
  rw [Nat.size_bit]
  rwa [hb]

theorem bitLenAux_eq_size : ∀ fuel n, n < 2 ^ fuel → bitLenAux fuel n = Nat.size n := by
  intro fuel
  induction fuel with
  | zero =>
    intro n h
    interval_cases n
    simp [bitLenAux]
  | succ m ih =>
    intro n h
    rw [bitLenAux]
    by_cases h0 : n = 0
    · simp [h0]
    · have hdiv : n / 2 < 2 ^ m := by
        have he : 2 ^ (m + 1) = 2 * 2 ^ m := by rw [pow_succ]; ring
        omega
      rw [if_neg h0, ih (n / 2) hdiv, ← size_div2_succ h0]

/-- `v | 1` in terms of plain arithmetic. -/
theorem lor_one_facts (v : Nat) : v ≤ v ||| 1 ∧ v ||| 1 ≤ v + 1 ∧ (v ||| 1) % 2 = 1 := by
  rw [lor_one_eq]
  omega

/-- The closed form of `encoded_len`: it counts base-128 digits. -/
theorem encoded_len_eq (v k : Nat) (h64 : v ||| 1 < 2 ^ 64) (hk : k ≤ 9)
    (hlo : 2 ^ (k * 7) ≤ v ||| 1) (hhi : v ||| 1 < 2 ^ (k * 7 + 7) ∨ k = 9) :
    Varint.encoded_len v = k + 1 := by
  have hsize_eq : bitLenAux 64 (v ||| 1) = Nat.size (v ||| 1) :=
    bitLenAux_eq_size 64 _ h64
  have hs1 : k * 7 < Nat.size (v ||| 1) := Nat.lt_size.mpr hlo
  have hs2 : Nat.size (v ||| 1) ≤ 64 := Nat.size_le.mpr h64
  have hs3 : Nat.size (v ||| 1) ≤ k * 7 + 7 := by
    rcases hhi with h | rfl
    · exact Nat.size_le.mpr h
    · omega
  rw [Varint.encoded_len, leadingZeros64, hsize_eq,
    xor_63 (64 - Nat.size (v ||| 1)) (by omega)]
  omega

/-! ### Claim C1 -/

/-- C1: for every `v : u64`, encoding with `Varint::encode` and decoding the
produced bytes with `Varint::decode` returns `v` (consuming the whole
output), and `Varint::encoded_len v` equals the number of bytes written and
lies between 1 and 10. -/
theorem varint_roundtrip (v : Nat) (hv : v < 2 ^ 64) :
    Varint.decode (Varint.encode v) = .ok (v, (Varint.encode v).length) ∧
    Varint.encoded_len v = (Varint.encode v).length ∧
    1 ≤ Varint.encoded_len v ∧ Varint.encoded_len v ≤ 10 := by
  have hv10 : v < 2 ^ (10 * 7) := lt_of_lt_of_le hv (by norm_num)
  have henc : Varint.encode v = leb128 10 v := by
    rw [Varint.encode, encodeAux_eq_leb128]
  obtain ⟨hB, hlen1, hlen2, hlast, hcont, hval, hub, hlb⟩ :=
    leb128_spec 10 v hv10 (by norm_num)
  set L := leb128 10 v with hL
  obtain ⟨hf1, hf2, hf3⟩ := lor_one_facts v
  have hft : firstTermFrom L 0 (min 10 L.length) = some (L.length - 1) :=
    firstTermFrom_eq_some_iff.mpr
      ⟨by omega, by omega, hlast, fun j hj hj2 => hcont j (by omega)⟩
  have hb9 : L.length = 10 → byteAt L 9 < 0x02 := by
    intro hlen10
    have hsnoc := segValue_snoc L 9 0
    norm_num at hsnoc
    rw [hlen10] at hval
    rw [hval] at hsnoc
    have hs9 : byteAt L 9 % 128 * 2 ^ 63 ≤ v := by omega
    have hm : byteAt L 9 % 128 < 128 := Nat.mod_lt _ (by norm_num)
    have hlt : byteAt L 9 < 0x80 := by
      have := hlast
      rw [hlen10] at this
      norm_num at this
      exact this
    have h9v : byteAt L 9 % 128 = byteAt L 9 := Nat.mod_eq_of_lt (by omega)
    rw [h9v] at hs9
    by_contra hc
    have : 2 * 2 ^ 63 ≤ byteAt L 9 * 2 ^ 63 := Nat.mul_le_mul_right _ (by omega)
    norm_num at this
    omega
  have hnot9 : ¬(L.length - 1 = 9 ∧ 0x02 ≤ byteAt L 9) := by
    rintro ⟨h9, hge⟩
    have hlen10 : L.length = 10 := by omega
    exact absurd (hb9 hlen10) (by omega)
  have href : varintRef L = .ok (v, L.length) := by
    simp only [varintRef, hft]
    rw [if_neg hnot9]
    have hl1 : L.length - 1 + 1 = L.length := by omega
    rw [hl1, hval]
  have h64 : v ||| 1 < 2 ^ 64 := by omega
  have hlo : 2 ^ ((L.length - 1) * 7) ≤ v ||| 1 := by
    rcases Nat.lt_or_ge 1 L.length with h1 | h1
    · exact le_trans (hlb h1) hf1
    · have hl1 : L.length = 1 := by omega
      rw [hl1]
      norm_num
      omega
  have hhi : v ||| 1 < 2 ^ ((L.length - 1) * 7 + 7) ∨ L.length - 1 = 9 := by
    left
    have h7 : (L.length - 1) * 7 + 7 = L.length * 7 := by omega
    rw [h7]
    have hE : 2 ^ (L.length * 7) = 2 * 2 ^ (L.length * 7 - 1) := by
      conv_lhs => rw [show L.length * 7 = (L.length * 7 - 1) + 1 from by omega]
      rw [pow_succ]
      ring
    omega
  have hel : Varint.encoded_len v = (L.length - 1) + 1 :=
    encoded_len_eq v (L.length - 1) h64 (by omega) hlo hhi
  rw [henc, Varint.decode_eq_ref L hB, href, hel]
  refine ⟨rfl, by omega, by omega, by omega⟩

/-- Witness for C1 at `v = 300`. -/
theorem varint_roundtrip_witness :
    300 < 2 ^ 64 ∧
      (Varint.decode (Varint.encode 300) = .ok (300, (Varint.encode 300).length) ∧
        Varint.encoded_len 300 = (Varint.encode 300).length ∧
        1 ≤ Varint.encoded_len 300 ∧ Varint.encoded_len 300 ≤ 10) :=
  ⟨by norm_num, varint_roundtrip 300 (by norm_num)⟩

/-! ### Claims C2 and C3 -/

/-- C2: all three decoders fail — with the "invalid varint" error — exactly
on the bad byte runs `varintBad`: no byte with the high bit clear among the
first `min 10 len` bytes (including the empty input), or a run terminating
on a tenth byte of value `0x02` or more.  The slice path is characterized
under its asserted precondition. -/
theorem varint_decode_error_iff (bytes : List Nat) (hb : ByteList bytes) :
    (Varint.decode bytes = .error "invalid varint" ↔ varintBad bytes) ∧
    (decode_varint_slow bytes = .error "invalid varint" ↔ varintBad bytes) ∧
    (bytes ≠ [] → 10 < bytes.length ∨ byteAt bytes (bytes.length - 1) < 0x80 →
      (decode_varint_slice bytes = .error "invalid varint" ↔ varintBad bytes)) := by
  refine ⟨?_, ?_, ?_⟩
  · rw [Varint.decode_eq_ref bytes hb, varintRef_error_iff]
  · rw [decode_varint_slow_eq_ref, varintRef_error_iff]
  · intro h1 h2
    rw [decode_varint_slice_eq_ref bytes hb h1 h2, varintRef_error_iff]

/-- Witness for C2 at the spec's overflow example `[0xFF × 9, 0x02]`. -/
theorem varint_decode_error_iff_witness :
    ByteList [0xFF, 0xFF, 0xFF, 0xFF, 0xFF, 0xFF, 0xFF, 0xFF, 0xFF, 0x02] ∧
      ((Varint.decode [0xFF, 0xFF, 0xFF, 0xFF, 0xFF, 0xFF, 0xFF, 0xFF, 0xFF, 0x02] =
          .error "invalid varint" ↔
        varintBad [0xFF, 0xFF, 0xFF, 0xFF, 0xFF, 0xFF, 0xFF, 0xFF, 0xFF, 0x02]) ∧
      (decode_varint_slow [0xFF, 0xFF, 0xFF, 0xFF, 0xFF, 0xFF, 0xFF, 0xFF, 0xFF, 0x02] =
          .error "invalid varint" ↔
        varintBad [0xFF, 0xFF, 0xFF, 0xFF, 0xFF, 0xFF, 0xFF, 0xFF, 0xFF, 0x02]) ∧
      ([0xFF, 0xFF, 0xFF, 0xFF, 0xFF, 0xFF, 0xFF, 0xFF, 0xFF, 0x02] ≠ ([] : List Nat) →
        10 < ([0xFF, 0xFF, 0xFF, 0xFF, 0xFF, 0xFF, 0xFF, 0xFF, 0xFF, 0x02] : List Nat).length ∨
          byteAt [0xFF, 0xFF, 0xFF, 0xFF, 0xFF, 0xFF, 0xFF, 0xFF, 0xFF, 0x02]
            (([0xFF, 0xFF, 0xFF, 0xFF, 0xFF, 0xFF, 0xFF, 0xFF, 0xFF, 0x02] : List Nat).length - 1) < 0x80 →
        (decode_varint_slice [0xFF, 0xFF, 0xFF, 0xFF, 0xFF, 0xFF, 0xFF, 0xFF, 0xFF, 0x02] =
            .error "invalid varint" ↔
          varintBad [0xFF, 0xFF, 0xFF, 0xFF, 0xFF, 0xFF, 0xFF, 0xFF, 0xFF, 0x02]))) :=
  ⟨by decide, varint_decode_error_iff _ (by decide)⟩

/-- C3: on every input satisfying the bulk path's asserted precondition
(non-empty, and longer than 10 bytes or ending in a byte below `0x80`), the
bulk and slow decoders return identical results — same value and bytes
consumed on success, and an error on exactly the same inputs. -/
theorem slice_slow_agree (bytes : List Nat) (hb : ByteList bytes)
    (hne : bytes ≠ [])
    (hpre : 10 < bytes.length ∨ byteAt bytes (bytes.length - 1) < 0x80) :
    decode_varint_slice bytes = decode_varint_slow bytes := by
  rw [decode_varint_slice_eq_ref bytes hb hne hpre, decode_varint_slow_eq_ref]

/-- Witness for C3 at the two-byte encoding of 300. -/
theorem slice_slow_agree_witness :
    ByteList [0xAC, 0x02] ∧ [0xAC, 0x02] ≠ ([] : List Nat) ∧
      (10 < ([0xAC, 0x02] : List Nat).length ∨
        byteAt [0xAC, 0x02] (([0xAC, 0x02] : List Nat).length - 1) < 0x80) ∧
      decode_varint_slice [0xAC, 0x02] = decode_varint_slow [0xAC, 0x02] :=
  ⟨by decide, by decide, by decide,
    slice_slow_agree [0xAC, 0x02] (by decide) (by decide) (by decide)⟩

/-! ### LengthDelimiter (`src/prost/src/encoding/length_delimiter.rs`)

`LengthDelimiter` holds one `usize`; the claims fix a 64-bit host, so a
`usize` value is a `Nat` below `2^64` and `usize::MAX as u64` is
`2^64 - 1`. -/

/-- `usize::MAX` on a 64-bit host. -/
def USIZE_MAX : Nat := 2 ^ 64 - 1

/-- `<LengthDelimiter as ProtobufEncode>::encode`: `usize as u64` is the
identity on a 64-bit host, then the varint encoding. -/
def LengthDelimiter.encode (length : Nat) : List Nat := Varint.encode length

/-- `<LengthDelimiter as ProtobufEncode>::encoded_len`. -/
def LengthDelimiter.encoded_len (length : Nat) : Nat := Varint.encoded_len length

/-- `<LengthDelimiter as ProtobufDecode>::decode`: decode a varint, then
reject values exceeding `usize::MAX`.  Result and cursor advance as for
`Varint.decode`. -/
def LengthDelimiter.decode (bytes : List Nat) : Except String (Nat × Nat) :=
  (Varint.decode bytes).bind fun p =>
    if p.1 > USIZE_MAX then .error "length delimiter exceeds maximum usize value"
    else .ok p

/-- `decode_length_delimiter`: `LengthDelimiter::decode(..).map(usize::from)`,
where `usize::from` is the identity on the embedded value. -/
def decode_length_delimiter (bytes : List Nat) : Except String (Nat × Nat) :=
  LengthDelimiter.decode bytes

/-! ### Claim C10 -/

/-- C10: on a 64-bit host the `length > usize::MAX` branch of
`LengthDelimiter::decode` is unreachable — every value `Varint::decode`
produces fits in 64 bits — so `LengthDelimiter::decode` and
`decode_length_delimiter` agree with `Varint::decode` exactly: same
successes, same values, same errors. -/
theorem length_delimiter_decode_eq_varint (bytes : List Nat) (hb : ByteList bytes) :
    LengthDelimiter.decode bytes = Varint.decode bytes ∧
    decode_length_delimiter bytes = Varint.decode bytes := by
  have hmain : LengthDelimiter.decode bytes = Varint.decode bytes := by
    rw [LengthDelimiter.decode]
    cases hd : Varint.decode bytes with
    | error e => rfl
    | ok p =>
      obtain ⟨v, n⟩ := p
      have hv : v < 2 ^ 64 ∧ 1 ≤ n ∧ n ≤ 10 :=
        varintRef_ok_lt bytes v n (by rw [← Varint.decode_eq_ref bytes hb]; exact hd)
      show (if v > USIZE_MAX then Except.error "length delimiter exceeds maximum usize value"
        else Except.ok (v, n)) = Except.ok (v, n)
      rw [if_neg (by rw [USIZE_MAX]; omega)]
  exact ⟨hmain, hmain⟩

/-- Witness for C10 at the bytes `[0xAC, 0x02]`. -/
theorem length_delimiter_decode_eq_varint_witness :
    ByteList [0xAC, 0x02] ∧
      (LengthDelimiter.decode [0xAC, 0x02] = Varint.decode [0xAC, 0x02] ∧
        decode_length_delimiter [0xAC, 0x02] = Varint.decode [0xAC, 0x02]) :=
  ⟨by decide, length_delimiter_decode_eq_varint [0xAC, 0x02] (by decide)⟩

/-! ### FieldNumber (`src/prost/src/encoding/field_number.rs`) -/

/-- `MIN_VALUE` from the source. -/
def fieldNumberMin : Nat := 1

/-- `MAX_VALUE = (1 << 29) - 1` from the source. -/
def fieldNumberMax : Nat := (1 <<< 29) - 1

/-- A field number within a protobuf message (the wrapped `u32`). -/
structure FieldNumber where
  value : Nat
deriving DecidableEq

/-- `FieldNumber::new`: panics when `field_number` is out of range; the
panic branch is modelled as `none`. -/
def FieldNumber.new (field_number : Nat) : Option FieldNumber :=
  if field_number < fieldNumberMin ∨ field_number > fieldNumberMax then none
  else some ⟨field_number⟩

/-- `<FieldNumber as TryFrom<u32>>::try_from`. -/
def FieldNumber.tryFrom (value : Nat) : Except String FieldNumber :=
  if fieldNumberMin ≤ value ∧ value ≤ fieldNumberMax then .ok ⟨value⟩
  else .error ("invalid field number: " ++ toString value)

/-- `u32::from(FieldNumber)` / `FieldNumber::into_inner`. -/
def FieldNumber.into_inner (f : FieldNumber) : Nat := f.value

theorem fieldNumberMax_eq : fieldNumberMax = 2 ^ 29 - 1 := by
  rw [fieldNumberMax, Nat.shiftLeft_eq]
  norm_num

/-! ### Claim C9 -/

/-- C9: `FieldNumber::try_from v` succeeds exactly when `1 ≤ v ≤ 2^29 - 1`,
returning a `FieldNumber` converting back to `v`, and errors otherwise;
`FieldNumber::new` panics (`none`) on exactly the same out-of-range inputs
and never produces an out-of-range value. -/
theorem field_number_ctor_spec (v : Nat) (hv : v < 2 ^ 32) :
    (FieldNumber.tryFrom v = .ok ⟨v⟩ ↔ 1 ≤ v ∧ v ≤ 2 ^ 29 - 1) ∧
    (¬(1 ≤ v ∧ v ≤ 2 ^ 29 - 1) →
      FieldNumber.tryFrom v = .error ("invalid field number: " ++ toString v)) ∧
    (FieldNumber.new v = some ⟨v⟩ ↔ 1 ≤ v ∧ v ≤ 2 ^ 29 - 1) ∧
    (FieldNumber.new v = none ↔ ¬(1 ≤ v ∧ v ≤ 2 ^ 29 - 1)) ∧
    (∀ f, FieldNumber.new v = some f →
      1 ≤ f.value ∧ f.value ≤ 2 ^ 29 - 1 ∧ f.into_inner = v) := by
  have hmm : fieldNumberMin = 1 := rfl
  have hmx := fieldNumberMax_eq
  by_cases h : 1 ≤ v ∧ v ≤ 2 ^ 29 - 1
  · refine ⟨?_, fun hc => absurd h hc, ?_, ?_, ?_⟩
    · rw [FieldNumber.tryFrom, if_pos (by omega)]
      exact ⟨fun _ => h, fun _ => rfl⟩
    · rw [FieldNumber.new, if_neg (by omega)]
      exact ⟨fun _ => h, fun _ => rfl⟩
    · rw [FieldNumber.new, if_neg (by omega)]
      exact ⟨fun hc => Option.noConfusion hc, fun hc => absurd h hc⟩
    · intro f hf
      rw [FieldNumber.new, if_neg (by omega)] at hf
      simp only [Option.some.injEq] at hf
      subst hf
      exact ⟨h.1, h.2, rfl⟩
  · refine ⟨?_, fun _ => ?_, ?_, ?_, ?_⟩
    · rw [FieldNumber.tryFrom, if_neg (by omega)]
      exact ⟨fun hc => Except.noConfusion hc, fun hc => absurd hc h⟩
    · rw [FieldNumber.tryFrom, if_neg (by omega)]
    · rw [FieldNumber.new, if_pos (by omega)]
      exact ⟨fun hc => Option.noConfusion hc, fun hc => absurd hc h⟩
    · rw [FieldNumber.new, if_pos (by omega)]
      exact ⟨fun _ => h, fun _ => rfl⟩
    · intro f hf
      rw [FieldNumber.new, if_pos (by omega)] at hf
      exact Option.noConfusion hf

/-- Witness for C9 at the boundary inputs 0, `2^29 - 1` and `2^29`. -/
theorem field_number_ctor_spec_witness :
    (0 < 2 ^ 32 ∧ FieldNumber.new 0 = none ∧
      FieldNumber.tryFrom 0 = .error ("invalid field number: " ++ toString 0)) ∧
    ((2 ^ 29 - 1 : Nat) < 2 ^ 32 ∧ FieldNumber.new (2 ^ 29 - 1) = some ⟨2 ^ 29 - 1⟩ ∧
      FieldNumber.tryFrom (2 ^ 29 - 1) = .ok ⟨2 ^ 29 - 1⟩) ∧
    ((2 ^ 29 : Nat) < 2 ^ 32 ∧ FieldNumber.new (2 ^ 29) = none ∧
      FieldNumber.tryFrom (2 ^ 29) =
        .error ("invalid field number: " ++ toString (2 ^ 29 : Nat))) :=
  ⟨⟨by norm_num,
    ((field_number_ctor_spec 0 (by norm_num)).2.2.2.1).mpr (by norm_num),
    (field_number_ctor_spec 0 (by norm_num)).2.1 (by norm_num)⟩,
   ⟨by norm_num,
    ((field_number_ctor_spec (2 ^ 29 - 1) (by norm_num)).2.2.1).mpr (by norm_num),
    ((field_number_ctor_spec (2 ^ 29 - 1) (by norm_num)).1).mpr (by norm_num)⟩,
   ⟨by norm_num,
    ((field_number_ctor_spec (2 ^ 29) (by norm_num)).2.2.2.1).mpr (by norm_num),
    (field_number_ctor_spec (2 ^ 29) (by norm_num)).2.1 (by norm_num)⟩⟩

/-! ### WireType and Tag (`src/prost/src/encoding/tag.rs`) -/

/-- Modelled from the spec: the `WireType` enum is declared outside `src/`
(it is an "external enum consumed here", spec §2/§3): exactly six
discriminants mapping to the 3-bit wire values Varint(0), Fixed64(1),
LengthDelimited(2), StartGroup(3), EndGroup(4), Fixed32(5). -/
inductive WireType
  | varint
  | fixed64
  | lengthDelimited
  | startGroup
  | endGroup
  | fixed32
deriving DecidableEq

/-- The 3-bit wire value of each discriminant (`wire_type as u32`). -/
def WireType.toNat : WireType → Nat
  | .varint => 0
  | .fixed64 => 1
  | .lengthDelimited => 2
  | .startGroup => 3
  | .endGroup => 4
  | .fixed32 => 5

/-- Modelled from the spec: `WireType::try_from` — any 3-bit value other
than 0..5 is a decode error ("invalid wire type value", §3 and §7). -/
def WireType.tryFrom (value : Nat) : Except String WireType :=
  match value with
  | 0 => .ok .varint
  | 1 => .ok .fixed64
  | 2 => .ok .lengthDelimited
  | 3 => .ok .startGroup
  | 4 => .ok .endGroup
  | 5 => .ok .fixed32
  | _ => .error ("invalid wire type value: " ++ toString value)

theorem WireType.toNat_lt (wt : WireType) : wt.toNat < 8 := by
  cases wt <;> norm_num [WireType.toNat]

theorem WireType.tryFrom_toNat (wt : WireType) : WireType.tryFrom wt.toNat = .ok wt := by
  cases wt <;> rfl

/-- A protobuf tag: field number plus wire type. -/
structure Tag where
  field_number : FieldNumber
  wire_type : WireType
deriving DecidableEq

/-- `Tag::new`. -/
def Tag.new (field_number : FieldNumber) (wire_type : WireType) : Tag :=
  ⟨field_number, wire_type⟩

/-- `<Tag as ProtobufEncode>::encode`: pack the key
`(tag << 3) | wire_type as u32` (`tag << 3` in `u32` is `tag * 8 % 2^32`)
and varint-encode it. -/
def Tag.encode (t : Tag) : List Nat :=
  Varint.encode ((t.field_number.value * 8) % 2 ^ 32 ||| t.wire_type.toNat)

/-- `<Tag as ProtobufEncode>::encoded_len`: the varint length of
`u64::from(tag << 3)` — computed without the wire-type bits. -/
def Tag.encoded_len (t : Tag) : Nat :=
  Varint.encoded_len ((t.field_number.value * 8) % 2 ^ 32)

/-- `<Tag as ProtobufDecode>::decode`: read one varint key, reject keys
above `u32::MAX`, split off the low 3 bits as the wire type and the rest
(`key as u32 >> 3`) as the field number.  Returns the tag and the number of
bytes the varint read consumed. -/
def Tag.decode (bytes : List Nat) : Except String (Tag × Nat) :=
  (Varint.decode bytes).bind fun p =>
    if p.1 > 2 ^ 32 - 1 then .error ("invalid key value: " ++ toString p.1)
    else
      (WireType.tryFrom (p.1 &&& 0x07)).bind fun wire_type =>
        (FieldNumber.tryFrom ((p.1 % 2 ^ 32) >>> 3)).bind fun field_number =>
          .ok (⟨field_number, wire_type⟩, p.2)

theorem WireType.tryFrom_ok_of_lt {v : Nat} (h : v < 6) :
    ∃ wt : WireType, WireType.tryFrom v = .ok wt ∧ wt.toNat = v := by
  interval_cases v
  · exact ⟨.varint, rfl, rfl⟩
  · exact ⟨.fixed64, rfl, rfl⟩
  · exact ⟨.lengthDelimited, rfl, rfl⟩
  · exact ⟨.startGroup, rfl, rfl⟩
  · exact ⟨.endGroup, rfl, rfl⟩
  · exact ⟨.fixed32, rfl, rfl⟩

/-- Packing the key: for an in-range field number the `u32` truncation is
the identity and the OR is addition. -/
theorem tag_key_eq (fn : Nat) (wt : WireType) (h : fn < 2 ^ 29) :
    (fn * 8) % 2 ^ 32 ||| wt.toNat = fn * 8 + wt.toNat := by
  have hm : (fn * 8) % 2 ^ 32 = fn * 8 := Nat.mod_eq_of_lt (by omega)
  have hwt := WireType.toNat_lt wt
  rw [hm, Nat.or_comm]
  have h8 : fn * 8 = fn * 2 ^ 3 := by norm_num
  rw [h8, lor_mul_two_pow_eq_add 3 fn (by omega)]
  ring

/-! ### Claim C4 -/

/-- C4: every tag with field number in `[1, 2^29 - 1]` and one of the six
wire types round-trips through `Tag::encode` / `Tag::decode`; and decoding
a key whose field-number bits are zero, or whose low three bits are 6 or 7,
fails. -/
theorem tag_roundtrip (fn : Nat) (wt : WireType) (h1 : 1 ≤ fn)
    (h2 : fn ≤ 2 ^ 29 - 1) :
    Tag.decode (Tag.encode ⟨⟨fn⟩, wt⟩) =
      .ok (⟨⟨fn⟩, wt⟩, (Tag.encode ⟨⟨fn⟩, wt⟩).length) ∧
    (∀ key, key ≤ 2 ^ 32 - 1 → key / 8 = 0 ∨ key % 8 = 6 ∨ key % 8 = 7 →
      ∃ e, Tag.decode (Varint.encode key) = .error e) := by
  constructor
  · have hwt := WireType.toNat_lt wt
    have henc : Tag.encode ⟨⟨fn⟩, wt⟩ = Varint.encode (fn * 8 + wt.toNat) := by
      rw [Tag.encode]
      rw [show (Tag.mk ⟨fn⟩ wt).field_number.value = fn from rfl,
        show (Tag.mk ⟨fn⟩ wt).wire_type = wt from rfl, tag_key_eq fn wt (by omega)]
    have hdec := (varint_roundtrip (fn * 8 + wt.toNat) (by omega)).1
    rw [henc, Tag.decode, hdec]
    simp only [Except.bind]
    rw [if_neg (by omega)]
    have hwt7 : (fn * 8 + wt.toNat) &&& 0x07 = wt.toNat := by
      rw [and_0x07]
      omega
    rw [hwt7, WireType.tryFrom_toNat]
    simp only [Except.bind]
    have hfn3 : ((fn * 8 + wt.toNat) % 2 ^ 32) >>> 3 = fn := by
      rw [Nat.mod_eq_of_lt (by omega), Nat.shiftRight_eq_div_pow]
      omega
    rw [hfn3, FieldNumber.tryFrom,
      if_pos ⟨h1, by rw [fieldNumberMax_eq]; omega⟩]
  · intro key hk hbad
    have hdec := (varint_roundtrip key (by omega)).1
    rw [Tag.decode, hdec]
    simp only [Except.bind]
    rw [if_neg (by omega)]
    rw [and_0x07]
    by_cases hw : key % 8 = 6 ∨ key % 8 = 7
    · rcases hw with hw | hw <;> rw [hw]
      · exact ⟨_, rfl⟩
      · exact ⟨_, rfl⟩
    · have hlt : key % 8 < 6 := by omega
      have h0 : key / 8 = 0 := by omega
      obtain ⟨wt', hwt', _⟩ := WireType.tryFrom_ok_of_lt hlt
      rw [hwt']
      simp only [Except.bind]
      have hfn3 : (key % 2 ^ 32) >>> 3 = 0 := by
        rw [Nat.mod_eq_of_lt (by omega), Nat.shiftRight_eq_div_pow]
        omega
      rw [hfn3, FieldNumber.tryFrom, if_neg (by rintro ⟨hq, _⟩; exact absurd hq (by norm_num [fieldNumberMin]))]
      exact ⟨_, rfl⟩

/-- Witness for C4 at field number 1, wire type `LengthDelimited`. -/
theorem tag_roundtrip_witness :
    1 ≤ 1 ∧ (1 : Nat) ≤ 2 ^ 29 - 1 ∧
      (Tag.decode (Tag.encode ⟨⟨1⟩, .lengthDelimited⟩) =
          .ok (⟨⟨1⟩, .lengthDelimited⟩, (Tag.encode ⟨⟨1⟩, .lengthDelimited⟩).length) ∧
        (∀ key, key ≤ 2 ^ 32 - 1 → key / 8 = 0 ∨ key % 8 = 6 ∨ key % 8 = 7 →
          ∃ e, Tag.decode (Varint.encode key) = .error e)) :=
  ⟨le_refl 1, by norm_num, tag_roundtrip 1 .lengthDelimited (le_refl 1) (by norm_num)⟩

/-! ### Claim C5 -/

/-- C5: `Tag::decode` reads one varint key and then: propagates the varint
error; fails with "invalid key value" when the key exceeds `2^32 - 1`;
otherwise fails with the invalid-wire-type error when the low 3 bits are 6
or 7; fails with the field-number range error when the high bits are zero
(exceeding `2^29 - 1` being impossible for a key within 32 bits); and in
all other cases succeeds with that field number and wire type, consuming
exactly the varint's bytes. -/
theorem tag_decode_errors (bytes : List Nat) :
    (∀ e, Varint.decode bytes = .error e → Tag.decode bytes = .error e) ∧
    (∀ key n, Varint.decode bytes = .ok (key, n) →
      (key ≤ 2 ^ 32 - 1 → key / 8 ≤ 2 ^ 29 - 1) ∧
      (2 ^ 32 - 1 < key →
        Tag.decode bytes = .error ("invalid key value: " ++ toString key)) ∧
      (key ≤ 2 ^ 32 - 1 → 6 ≤ key % 8 →
        Tag.decode bytes = .error ("invalid wire type value: " ++ toString (key % 8))) ∧
      (key ≤ 2 ^ 32 - 1 → key % 8 < 6 → key / 8 = 0 →
        Tag.decode bytes = .error ("invalid field number: " ++ toString (key / 8))) ∧
      (key ≤ 2 ^ 32 - 1 → key % 8 < 6 → 1 ≤ key / 8 →
        ∃ wt : WireType, wt.toNat = key % 8 ∧
          Tag.decode bytes = .ok (⟨⟨key / 8⟩, wt⟩, n))) := by
  constructor
  · intro e he
    rw [Tag.decode, he]
    rfl
  · intro key n hok
    have hfn3 : key ≤ 2 ^ 32 - 1 → (key % 2 ^ 32) >>> 3 = key / 8 := by
      intro hk
      rw [Nat.mod_eq_of_lt (by omega), Nat.shiftRight_eq_div_pow]
    refine ⟨fun hk => by omega, fun hk => ?_, fun hk hw => ?_, fun hk hw h0 => ?_,
      fun hk hw h1 => ?_⟩
    · rw [Tag.decode, hok]
      simp only [Except.bind]
      rw [if_pos (by omega)]
    · rw [Tag.decode, hok]
      simp only [Except.bind]
      rw [if_neg (by omega), and_0x07]
      have h67 : key % 8 = 6 ∨ key % 8 = 7 := by omega
      rcases h67 with h67 | h67 <;> rw [h67] <;> rfl
    · rw [Tag.decode, hok]
      simp only [Except.bind]
      rw [if_neg (by omega), and_0x07]
      obtain ⟨wt', hwt', _⟩ := WireType.tryFrom_ok_of_lt hw
      rw [hwt']
      simp only [Except.bind]
      rw [hfn3 hk, h0, FieldNumber.tryFrom,
        if_neg (by rintro ⟨hq, _⟩; exact absurd hq (by norm_num [fieldNumberMin]))]
    · rw [Tag.decode, hok]
      simp only [Except.bind]
      rw [if_neg (by omega), and_0x07]
      obtain ⟨wt', hwt', hwteq⟩ := WireType.tryFrom_ok_of_lt hw
      refine ⟨wt', hwteq, ?_⟩
      rw [hwt']
      simp only [Except.bind]
      rw [hfn3 hk, FieldNumber.tryFrom,
        if_pos ⟨h1, by rw [fieldNumberMax_eq]; omega⟩]

/-- Witness for C5: the key 8 (field number 1, wire type 0) on the single
byte `[0x08]`. -/
theorem tag_decode_errors_witness :
    Varint.decode [0x08] = .ok (8, 1) ∧
      (8 : Nat) ≤ 2 ^ 32 - 1 ∧ (8 : Nat) % 8 < 6 ∧ 1 ≤ (8 : Nat) / 8 ∧
      ∃ wt : WireType, wt.toNat = (8 : Nat) % 8 ∧
        Tag.decode [0x08] = .ok (⟨⟨8 / 8⟩, wt⟩, 1) :=
  ⟨rfl, by norm_num, by norm_num, by norm_num,
    ((tag_decode_errors [0x08]).2 8 1 rfl).2.2.2.2 (by norm_num) (by norm_num)
      (by norm_num)⟩

/-! ### Claim C6 -/

/-- `encoded_len` agrees on `fn * 8` and on `fn * 8 + wtv` for any 3-bit
`wtv`: the wire-type bits never change the varint length of the key. -/
theorem encoded_len_key_eq (fn wtv k : Nat) (hfn1 : 1 ≤ fn) (hwt : wtv < 8)
    (hk : k ≤ 4) (hlo : 2 ^ (k * 7) ≤ fn * 8 + 1)
    (hhi : fn * 8 + 1 < 2 ^ (k * 7 + 7)) :
    Varint.encoded_len (fn * 8) = k + 1 ∧
    Varint.encoded_len (fn * 8 + wtv) = k + 1 := by
  have h1 : fn * 8 ||| 1 = fn * 8 + 1 := by rw [lor_one_eq]; omega
  have h2' := lor_one_eq (fn * 8 + wtv)
  have hpow : (2 : Nat) ^ (k * 7 + 7) ≤ 2 ^ 35 :=
    Nat.pow_le_pow_right (by norm_num) (by omega)
  have hdvd : 2 ^ (k * 7 + 7) = 8 * 2 ^ (k * 7 + 4) := by
    rw [show k * 7 + 7 = 3 + (k * 7 + 4) from by omega, pow_add]
    norm_num
  constructor
  · exact encoded_len_eq _ k (by omega) (by omega) (by omega) (Or.inl (by omega))
  · refine encoded_len_eq _ k (by omega) (by omega) ?_ (Or.inl (by omega))
    rcases Nat.eq_zero_or_pos k with rfl | hk1
    · norm_num
      omega
    · have hd0 : 2 ^ (k * 7) = 8 * 2 ^ (k * 7 - 3) := by
        rw [show k * 7 = 3 + (k * 7 - 3) from by omega, pow_add]
        norm_num
      omega

/-- C6: for every valid tag, `Tag::encoded_len` — computed from
`field_number << 3` without the wire-type bits — equals the varint length
of the full packed key and the number of bytes `Tag::encode` writes. -/
theorem tag_encoded_len_correct (fn : Nat) (wt : WireType) (h1 : 1 ≤ fn)
    (h2 : fn ≤ 2 ^ 29 - 1) :
    Tag.encoded_len ⟨⟨fn⟩, wt⟩ = Varint.encoded_len (fn * 8 + wt.toNat) ∧
    Tag.encoded_len ⟨⟨fn⟩, wt⟩ = (Tag.encode ⟨⟨fn⟩, wt⟩).length := by
  have hwt := WireType.toNat_lt wt
  have hmod : (fn * 8) % 2 ^ 32 = fn * 8 := Nat.mod_eq_of_lt (by omega)
  have hencdef : Tag.encoded_len ⟨⟨fn⟩, wt⟩ = Varint.encoded_len (fn * 8) := by
    rw [Tag.encoded_len, show (Tag.mk ⟨fn⟩ wt).field_number.value = fn from rfl, hmod]
  have henc : Tag.encode ⟨⟨fn⟩, wt⟩ = Varint.encode (fn * 8 + wt.toNat) := by
    rw [Tag.encode]
    rw [show (Tag.mk ⟨fn⟩ wt).field_number.value = fn from rfl,
      show (Tag.mk ⟨fn⟩ wt).wire_type = wt from rfl, tag_key_eq fn wt (by omega)]
  have hlen := (varint_roundtrip (fn * 8 + wt.toNat) (by omega)).2.1
  have hcase : ∃ k, k ≤ 4 ∧ 2 ^ (k * 7) ≤ fn * 8 + 1 ∧ fn * 8 + 1 < 2 ^ (k * 7 + 7) := by
    rcases Nat.lt_or_ge fn 16 with h | h
    · exact ⟨0, by norm_num, by omega, by omega⟩
    · rcases Nat.lt_or_ge fn 2048 with h' | h'
      · exact ⟨1, by norm_num, by omega, by omega⟩
      · rcases Nat.lt_or_ge fn 262144 with h'' | h''
        · exact ⟨2, by norm_num, by omega, by omega⟩
        · rcases Nat.lt_or_ge fn 33554432 with h3 | h3
          · exact ⟨3, by norm_num, by omega, by omega⟩
          · exact ⟨4, by norm_num, by omega, by omega⟩
  obtain ⟨k, hk, hlo, hhi⟩ := hcase
  obtain ⟨e1, e2⟩ := encoded_len_key_eq fn wt.toNat k h1 hwt hk hlo hhi
  refine ⟨?_, ?_⟩
  · rw [hencdef, e1, e2]
  · rw [hencdef, henc, ← hlen, e1, e2]

/-- Witness for C6 at field number 1000, wire type `Fixed64`. -/
theorem tag_encoded_len_correct_witness :
    1 ≤ 1000 ∧ (1000 : Nat) ≤ 2 ^ 29 - 1 ∧
      (Tag.encoded_len ⟨⟨1000⟩, .fixed64⟩ =
          Varint.encoded_len (1000 * 8 + WireType.toNat .fixed64) ∧
        Tag.encoded_len ⟨⟨1000⟩, .fixed64⟩ = (Tag.encode ⟨⟨1000⟩, .fixed64⟩).length) :=
  ⟨by norm_num, by norm_num, tag_encoded_len_correct 1000 .fixed64 (by norm_num) (by norm_num)⟩

/-! ### Claim C7: `encode_length_delimiter` -/

/-- `EncodeError::new(required, remaining)` from `error.rs`. -/
structure EncodeError where
  required : Nat
  remaining : Nat
deriving DecidableEq

/-- A `BufMut` for the encode direction: the bytes already written and the
writable capacity still left (`remaining_mut`).  Writing appends bytes and
consumes capacity. -/
structure WriteBuf where
  remaining_mut : Nat
  written : List Nat
deriving DecidableEq

def WriteBuf.put (b : WriteBuf) (bs : List Nat) : WriteBuf :=
  ⟨b.remaining_mut - bs.length, b.written ++ bs⟩

/-- `encode_length_delimiter` from the source: check capacity against
`encoded_len`, fail with `EncodeError::new(required, remaining)` without
touching the buffer, otherwise write the delimiter. -/
def encode_length_delimiter (length : Nat) (buf : WriteBuf) :
    Except EncodeError WriteBuf :=
  let required := LengthDelimiter.encoded_len length
  let remaining := buf.remaining_mut
  if required > remaining then .error ⟨required, remaining⟩
  else .ok (buf.put (LengthDelimiter.encode length))

/-- `length_delimiter_len` from the source. -/
def length_delimiter_len (length : Nat) : Nat := LengthDelimiter.encoded_len length

/-- C7: `encode_length_delimiter` fails with
`EncodeError { required = length_delimiter_len length, remaining }` exactly
when that required size exceeds the buffer's remaining capacity, leaving
the buffer untouched; otherwise it succeeds, appending exactly
`length_delimiter_len length` bytes — which equals the varint encoded
length of the value and lies in `[1, 10]`. -/
theorem encode_length_delimiter_correct (length : Nat) (buf : WriteBuf)
    (hlen : length < 2 ^ 64) :
    (length_delimiter_len length = Varint.encoded_len length ∧
      1 ≤ length_delimiter_len length ∧ length_delimiter_len length ≤ 10) ∧
    (buf.remaining_mut < length_delimiter_len length →
      encode_length_delimiter length buf =
        .error ⟨length_delimiter_len length, buf.remaining_mut⟩) ∧
    (length_delimiter_len length ≤ buf.remaining_mut →
      encode_length_delimiter length buf =
        .ok ⟨buf.remaining_mut - length_delimiter_len length,
          buf.written ++ LengthDelimiter.encode length⟩ ∧
      (LengthDelimiter.encode length).length = length_delimiter_len length) := by
  obtain ⟨hdec, hlen_eq, hge1, hle10⟩ := varint_roundtrip length hlen
  have hld : length_delimiter_len length = Varint.encoded_len length := rfl
  have hld2 : LengthDelimiter.encoded_len length = length_delimiter_len length := rfl
  have henc_len : (LengthDelimiter.encode length).length = length_delimiter_len length := by
    rw [LengthDelimiter.encode, hld, hlen_eq]
  refine ⟨⟨hld, by omega, by omega⟩, fun hcap => ?_, fun hcap => ⟨?_, henc_len⟩⟩
  · rw [encode_length_delimiter, if_pos (by omega), hld2]
  · rw [encode_length_delimiter, if_neg (by omega), WriteBuf.put, henc_len]

/-- Witness for C7: the spec's capacity scenario for `length = 300`: with
1 byte remaining the call fails with `required = 2, remaining = 1`; with 2
bytes remaining it succeeds and writes exactly the two bytes
`[0xAC, 0x02]`. -/
theorem encode_length_delimiter_correct_witness :
    300 < 2 ^ 64 ∧
      (WriteBuf.mk 1 []).remaining_mut < length_delimiter_len 300 ∧
      encode_length_delimiter 300 ⟨1, []⟩ = .error ⟨2, 1⟩ ∧
      length_delimiter_len 300 ≤ (WriteBuf.mk 2 []).remaining_mut ∧
      encode_length_delimiter 300 ⟨2, []⟩ = .ok ⟨0, [0xAC, 0x02]⟩ := by
  have happ1 := (encode_length_delimiter_correct 300 ⟨1, []⟩ (by norm_num)).2.1
    (by decide)
  have happ2 := ((encode_length_delimiter_correct 300 ⟨2, []⟩ (by norm_num)).2.2
    (by decide)).1
  refine ⟨by norm_num, by decide, ?_, by decide, ?_⟩
  · rw [happ1]
    rfl
  · rw [happ2]
    rfl

/-! ### Any (`src/prost-types/src/any.rs`) -/

/-- `DecodeAnyError` from `any.rs`: either a propagated decode error or an
unexpected type URL carrying both the actual (stored) and expected URL
strings. -/
inductive DecodeAnyError
  | Decode (err : String)
  | UnexpectedTypeUrl (actual : String) (expected : String)
deriving DecidableEq

/-- `Any`: a type-URL string paired with the encoded payload bytes. -/
structure Any where
  type_url : String
  value : List Nat
deriving DecidableEq

/-- Split a character list at its first slash. -/
def typeUrlParts : List Char → Option (List Char × List Char)
  | [] => none
  | c :: rest =>
    if c = '/' then some ([], rest)
    else
      match typeUrlParts rest with
      | some (a, b) => some (c :: a, b)
      | none => none

/-- Modelled from the spec: `TypeUrl::new` is declared outside `src/`.
Per §4.5/§6 a type URL is well-formed when shaped
`scheme-authority/package.TypeName` — a non-empty authority, one slash, a
non-empty name — and the validated values compare by exact, case-sensitive
string equality, so the validated value is the string itself; a malformed
or empty URL on either side never matches (§4.5, §9). -/
def TypeUrl.new (s : String) : Option String :=
  match typeUrlParts s.toList with
  | some (authority, name) =>
    if authority ≠ [] ∧ name ≠ [] ∧ ¬ name.contains '/' then some s else none
  | none => none

/-- `Any::to_msg::<M>`, generic over the concrete message type:
`expected_type_url` stands for `M::type_url()` and `decodeM` for
`M::decode`.  Both URLs must parse as type URLs and compare equal before
the payload is decoded; every other outcome is the `UnexpectedTypeUrl`
error carrying the stored and expected strings. -/
def Any.to_msg {α : Type} (expected_type_url : String)
    (decodeM : List Nat → Except String α) (a : Any) : Except DecodeAnyError α :=
  match TypeUrl.new expected_type_url, TypeUrl.new a.type_url with
  | some expected, some actual =>
    if expected = actual then (decodeM a.value).mapError DecodeAnyError.Decode
    else .error (.UnexpectedTypeUrl a.type_url expected_type_url)
  | some _, none => .error (.UnexpectedTypeUrl a.type_url expected_type_url)
  | none, _ => .error (.UnexpectedTypeUrl a.type_url expected_type_url)

/-- `TypeUrl.new` validates in place: a parse success returns the input. -/
theorem TypeUrl.new_eq_some {s t : String} (h : TypeUrl.new s = some t) : t = s := by
  rw [TypeUrl.new] at h
  split at h
  · split at h
    · exact (Option.some.inj h).symm
    · exact Option.noConfusion h
  · exact Option.noConfusion h

/-! ### Claim C8 -/

/-- C8: `Any::to_msg` fails with `UnexpectedTypeUrl` — carrying the stored
(actual) and expected URL strings — whenever either URL is malformed or the
two well-formed URLs differ; only when both parse and compare equal does it
decode the payload, and then any failure is the propagated decode error. -/
theorem any_to_msg_spec {α : Type} (expected_type_url : String)
    (decodeM : List Nat → Except String α) (a : Any) :
    (TypeUrl.new expected_type_url = none ∨ TypeUrl.new a.type_url = none ∨
        expected_type_url ≠ a.type_url →
      Any.to_msg expected_type_url decodeM a =
        .error (.UnexpectedTypeUrl a.type_url expected_type_url)) ∧
    (TypeUrl.new expected_type_url ≠ none → TypeUrl.new a.type_url ≠ none →
      expected_type_url = a.type_url →
      Any.to_msg expected_type_url decodeM a =
        (decodeM a.value).mapError DecodeAnyError.Decode) := by
  constructor
  · intro hbad
    rcases he : TypeUrl.new expected_type_url with _ | e
    · simp only [Any.to_msg, he]
    · rcases ha : TypeUrl.new a.type_url with _ | act
      · simp only [Any.to_msg, he, ha]
      · have he' : e = expected_type_url := TypeUrl.new_eq_some he
        have ha' : act = a.type_url := TypeUrl.new_eq_some ha
        subst he'
        subst ha'
        simp only [Any.to_msg, he, ha]
        rcases hbad with h | h | h
        · rw [h] at he
          exact Option.noConfusion he
        · rw [h] at ha
          exact Option.noConfusion ha
        · rw [if_neg h]
  · intro hne1 hne2 heq
    rcases he : TypeUrl.new expected_type_url with _ | e
    · exact absurd he hne1
    · rcases ha : TypeUrl.new a.type_url with _ | act
      · exact absurd ha hne2
      · have he' : e = expected_type_url := TypeUrl.new_eq_some he
        have ha' : act = a.type_url := TypeUrl.new_eq_some ha
        subst he'
        subst ha'
        simp only [Any.to_msg, he, ha]
        rw [if_pos heq]

/-- Witness for C8: matching Timestamp URLs decode; a Duration request on
the same stored value fails with both URLs in the error. -/
theorem any_to_msg_spec_witness :
    (TypeUrl.new "type.googleapis.com/google.protobuf.Timestamp" ≠ none ∧
      "type.googleapis.com/google.protobuf.Timestamp" =
        (Any.mk "type.googleapis.com/google.protobuf.Timestamp" []).type_url ∧
      Any.to_msg "type.googleapis.com/google.protobuf.Timestamp"
          (fun _ => Except.ok 0)
          ⟨"type.googleapis.com/google.protobuf.Timestamp", []⟩ =
        (Except.ok (0 : Nat)).mapError DecodeAnyError.Decode) ∧
    ("type.googleapis.com/google.protobuf.Duration" ≠
        (Any.mk "type.googleapis.com/google.protobuf.Timestamp" []).type_url ∧
      Any.to_msg "type.googleapis.com/google.protobuf.Duration"
          (fun _ => Except.ok (0 : Nat))
          ⟨"type.googleapis.com/google.protobuf.Timestamp", []⟩ =
        .error (.UnexpectedTypeUrl "type.googleapis.com/google.protobuf.Timestamp"
          "type.googleapis.com/google.protobuf.Duration")) :=
  ⟨⟨by decide, rfl,
    (any_to_msg_spec "type.googleapis.com/google.protobuf.Timestamp"
        (fun _ => Except.ok 0)
        ⟨"type.googleapis.com/google.protobuf.Timestamp", []⟩).2
      (by decide) (by decide) rfl⟩,
   ⟨by decide,
    (any_to_msg_spec "type.googleapis.com/google.protobuf.Duration"
        (fun _ => Except.ok 0)
        ⟨"type.googleapis.com/google.protobuf.Timestamp", []⟩).1
      (Or.inr (Or.inr (by decide)))⟩⟩

end Prost
